import Mathlib

/-!
Verification development for the gsoda G-code viewer core
(`src/main.rs`): the motion interpreter `parse_gcode`, the toolpath
trimmer `filter_priming_lines`, and the bounds calculator
`compute_bounds`.  Coordinates are embedded as exact rationals; the
infinite extrema used by `Bounds::new` are embedded by an explicit
extended-rational type.
-/

/-- Mirror of `struct Vec3D { x, y, z : f32 }` from `src/main.rs`. -/
structure Vec3D where
  x : ℚ
  y : ℚ
  z : ℚ
deriving DecidableEq, Repr

/-- Mirror of `Vec3D::zero()`. -/
def Vec3D.zero : Vec3D := ⟨0, 0, 0⟩

/-- Mirror of `struct LineSegment` from `src/main.rs` (`end` is a Lean
keyword, so the field is named `endPt`). -/
structure LineSegment where
  start : Vec3D
  endPt : Vec3D
  is_extrusion : Bool
  layer_z : ℚ
deriving DecidableEq, Repr

/-- Extended rational used for the bounds extrema: `f32::INFINITY` and
`f32::NEG_INFINITY` from `Bounds::new`, plus finite values. -/
inductive XR where
  | negInf : XR
  | fin : ℚ → XR
  | posInf : XR
deriving DecidableEq, Repr

/-- Mirror of `f32::min` on the values occurring in `Bounds` (no NaN). -/
def XR.minv : XR → XR → XR
  | XR.negInf, _ => XR.negInf
  | _, XR.negInf => XR.negInf
  | XR.posInf, b => b
  | a, XR.posInf => a
  | XR.fin a, XR.fin b => XR.fin (if a ≤ b then a else b)

/-- Mirror of `f32::max` on the values occurring in `Bounds` (no NaN). -/
def XR.maxv : XR → XR → XR
  | XR.posInf, _ => XR.posInf
  | _, XR.posInf => XR.posInf
  | XR.negInf, b => b
  | a, XR.negInf => a
  | XR.fin a, XR.fin b => XR.fin (if a ≤ b then b else a)

/-- Point with extended-rational coordinates, the type of the `min` and
`max` fields of `Bounds`. -/
structure XVec3D where
  x : XR
  y : XR
  z : XR
deriving DecidableEq, Repr

/-- Mirror of `struct Bounds { min, max : Vec3D }`. -/
structure Bounds where
  min : XVec3D
  max : XVec3D
deriving DecidableEq, Repr

/-- Mirror of `Bounds::new()`: min at `(+inf,+inf,+inf)`, max at
`(-inf,-inf,-inf)`. -/
def Bounds.new : Bounds :=
  ⟨⟨XR.posInf, XR.posInf, XR.posInf⟩, ⟨XR.negInf, XR.negInf, XR.negInf⟩⟩

/-- Mirror of `Bounds::expand`. -/
def Bounds.expand (b : Bounds) (p : Vec3D) : Bounds :=
  ⟨⟨XR.minv b.min.x (XR.fin p.x), XR.minv b.min.y (XR.fin p.y),
    XR.minv b.min.z (XR.fin p.z)⟩,
   ⟨XR.maxv b.max.x (XR.fin p.x), XR.maxv b.max.y (XR.fin p.y),
    XR.maxv b.max.z (XR.fin p.z)⟩⟩

/-- One letter-coded argument of a G-code word, as exposed by the
external `gcode` crate (`arg.letter`, `arg.value`). -/
structure Arg where
  letter : Char
  value : ℚ
deriving DecidableEq, Repr

/-- Mirror of `gcode::Mnemonic`; only `General` is interpreted by
`parse_gcode`. -/
inductive Mnemonic where
  | General : Mnemonic
  | Miscellaneous : Mnemonic
  | ProgramNumber : Mnemonic
  | ToolChange : Mnemonic
deriving DecidableEq, Repr

/-- One parsed G-code command: mnemonic, major number, arguments, as
consumed by the interpreter loop in `parse_gcode`. -/
structure GCode where
  mnemonic : Mnemonic
  major : ℕ
  args : List Arg
deriving DecidableEq, Repr

/-- Interpreter state of `parse_gcode`: `current_pos`, `e_pos`,
`absolute_mode`. -/
structure PState where
  current_pos : Vec3D
  e_pos : ℚ
  absolute_mode : Bool
deriving DecidableEq, Repr

/-- Initial interpreter state of `parse_gcode`: origin, zero deposited
material, absolute mode. -/
def initState : PState := ⟨Vec3D.zero, 0, true⟩

/-- Mirror of the argument loop of `parse_gcode`: each argument letter
overwrites the corresponding component of the accumulated
`(new_pos, new_e)` pair. -/
def applyArg (acc : Vec3D × ℚ) (a : Arg) : Vec3D × ℚ :=
  if a.letter = 'X' then (⟨a.value, acc.1.y, acc.1.z⟩, acc.2)
  else if a.letter = 'Y' then (⟨acc.1.x, a.value, acc.1.z⟩, acc.2)
  else if a.letter = 'Z' then (⟨acc.1.x, acc.1.y, a.value⟩, acc.2)
  else if a.letter = 'E' then (acc.1, a.value)
  else acc

/-- Mirror of the position/extrusion resolution of a `G0`/`G1` command
in `parse_gcode`: start from the current state, overwrite with the
arguments, then in relative mode add the current state back in. -/
def resolveMove (st : PState) (args : List Arg) : Vec3D × ℚ :=
  let acc := args.foldl applyArg (st.current_pos, st.e_pos)
  if st.absolute_mode then acc
  else (⟨acc.1.x + st.current_pos.x, acc.1.y + st.current_pos.y,
         acc.1.z + st.current_pos.z⟩, acc.2 + st.e_pos)

/-- Mirror of the `G0`/`G1` branch of `parse_gcode`: emit a segment iff
the resolved position differs from the current one, then update the
state unconditionally. -/
def moveStep (st : PState) (args : List Arg) : PState × Option LineSegment :=
  let new_pos := (resolveMove st args).1
  let new_e := (resolveMove st args).2
  (⟨new_pos, new_e, st.absolute_mode⟩,
   if new_pos.x ≠ st.current_pos.x ∨ new_pos.y ≠ st.current_pos.y ∨
      new_pos.z ≠ st.current_pos.z then
     some ⟨st.current_pos, new_pos, decide (st.e_pos < new_e), new_pos.z⟩
   else none)

/-- Mirror of the command dispatch of `parse_gcode`: `G0`/`G1` move,
`G90` absolute, `G91` relative, everything else ignored. -/
def stepGCode (st : PState) (g : GCode) : PState × Option LineSegment :=
  match g.mnemonic with
  | Mnemonic.General =>
    if g.major = 0 ∨ g.major = 1 then moveStep st g.args
    else if g.major = 90 then (⟨st.current_pos, st.e_pos, true⟩, none)
    else if g.major = 91 then (⟨st.current_pos, st.e_pos, false⟩, none)
    else (st, none)
  | _ => (st, none)

/-- Interpreter loop of `parse_gcode` over an already-tokenized command
stream, collecting the emitted segments in order. -/
def runCmds : PState → List GCode → PState × List LineSegment
  | st, [] => (st, [])
  | st, g :: rest =>
    ((runCmds (stepGCode st g).1 rest).1,
     (stepGCode st g).2.toList ++ (runCmds (stepGCode st g).1 rest).2)

/-- Segment sequence produced by interpreting a command stream from the
initial state. -/
def parse_gcode_cmds (cmds : List GCode) : List LineSegment :=
  (runCmds initState cmds).2

/-- Whitespace test used for line trimming and word splitting
(mirrors `str::trim` / token separation on the inputs at hand). -/
def isWSChar (c : Char) : Bool :=
  c = ' ' || c = '\t' || c = '\r'

/-- Mirror of `str::trim` on a single line (no newline inside a line). -/
def trimChars (cs : List Char) : List Char :=
  ((cs.dropWhile isWSChar).reverse.dropWhile isWSChar).reverse

/-- Split a character stream into lines at newline characters (mirror
of `str::lines`; a trailing empty line is harmless, being skipped). -/
def splitLines : List Char → List (List Char)
  | [] => [[]]
  | c :: rest =>
    if c = '\n' then [] :: splitLines rest
    else
      match splitLines rest with
      | [] => [[c]]
      | l :: ls => (c :: l) :: ls

/-- Split a trimmed line into whitespace-separated words. -/
def wordsAux : List Char → List Char → List (List Char)
  | [], acc => if acc = [] then [] else [acc.reverse]
  | c :: rest, acc =>
    if isWSChar c then
      if acc = [] then wordsAux rest [] else acc.reverse :: wordsAux rest []
    else wordsAux rest (c :: acc)

/-- Words of a line. -/
def wordsOf (cs : List Char) : List (List Char) := wordsAux cs []

/-- Accumulate decimal digits into a natural number. -/
def parseDigitsAux : List Char → ℕ → Option ℕ
  | [], acc => some acc
  | c :: rest, acc =>
    if c.isDigit then parseDigitsAux rest (acc * 10 + (c.toNat - 48))
    else none

/-- Parse a non-empty digit string. -/
def parseDigits (cs : List Char) : Option ℕ :=
  match cs with
  | [] => none
  | _ => parseDigitsAux cs 0

/-- Split a numeral at its first decimal point, if any. -/
def splitDot : List Char → List Char × Option (List Char)
  | [] => ([], none)
  | c :: rest =>
    if c = '.' then ([], some rest)
    else ((splitDot rest).1.cons c, (splitDot rest).2)

/-- Parse an unsigned decimal numeral into a rational. -/
def parseUnsigned (cs : List Char) : Option ℚ :=
  match (splitDot cs).2 with
  | none => (parseDigits cs).map (fun n => (n : ℚ))
  | some fp =>
    match parseDigits (splitDot cs).1, parseDigits fp with
    | some n, some m => some ((n : ℚ) + (m : ℚ) / ((10 : ℚ) ^ fp.length))
    | _, _ => none

/-- Parse a possibly negated decimal numeral into a rational. -/
def parseNumber : List Char → Option ℚ
  | '-' :: rest => (parseUnsigned rest).map (fun q => -q)
  | cs => parseUnsigned cs

/-- Parse one word into its letter and numeric value. -/
def parseWord (w : List Char) : Option (Char × ℚ) :=
  match w with
  | [] => none
  | c :: rest =>
    if c.isAlpha then (parseNumber rest).map (fun q => (c, q)) else none

/-- Mnemonic category of a command letter. -/
def mnemonicOfLetter (c : Char) : Option Mnemonic :=
  if c = 'G' ∨ c = 'g' then some Mnemonic.General
  else if c = 'M' ∨ c = 'm' then some Mnemonic.Miscellaneous
  else if c = 'T' ∨ c = 't' then some Mnemonic.ToolChange
  else if c = 'O' ∨ c = 'o' then some Mnemonic.ProgramNumber
  else none

/-- Major number of a command value (integer part). -/
def majorOf (q : ℚ) : ℕ := (q.num / (q.den : ℤ)).toNat

/-- Modelled from the spec: the external `gcode` crate's per-line
tokenizer (`gcode::parse`), which is a dependency, not repository code.
Per spec section 4.1 a non-skipped line is tokenized into commands with
a mnemonic, a major number and letter-coded arguments, and lines that
fail to tokenize contribute no commands. -/
def tokenizeLine (line : List Char) : List GCode :=
  match wordsOf line with
  | [] => []
  | w :: rest =>
    match parseWord w with
    | none => []
    | some cq =>
      match mnemonicOfLetter cq.1 with
      | none => []
      | some m =>
        [⟨m, majorOf cq.2, rest.filterMap
            (fun w2 => (parseWord w2).map (fun p => ⟨p.1, p.2⟩))⟩]

/-- Mirror of the per-line handling of `parse_gcode`: trim, skip empty
and comment lines, otherwise tokenize. -/
def lineCmds (line : List Char) : List GCode :=
  let t := trimChars line
  if t = [] then []
  else if t.head? = some ';' then []
  else tokenizeLine t

/-- Mirror of `parse_gcode` over the full text content (the file read
itself is out of scope; the content string is the input). -/
def parse_gcode (content : String) : List LineSegment :=
  parse_gcode_cmds (((splitLines content.toList).map lineCmds).flatten)

/-- Mirror of the `away_from_edges` predicate of `filter_priming_lines`:
a segment qualifies when it is not at an edge (an endpoint with
`x < 10` or `y < 20`) and not a long move (x- or y-extent above 100). -/
def awayOK (s : LineSegment) : Prop :=
  ¬(s.start.x < 10 ∨ s.endPt.x < 10 ∨ s.start.y < 20 ∨ s.endPt.y < 20) ∧
  ¬(100 < |s.endPt.x - s.start.x| ∨ 100 < |s.endPt.y - s.start.y|)

instance (s : LineSegment) : Decidable (awayOK s) := by
  unfold awayOK
  exact inferInstance

/-- Window condition of `filter_priming_lines` at index `i`: the window
of 5 consecutive segments starting at `i` exists, contains at least 3
extrusion segments, and all of its segments satisfy `awayOK`. -/
def goodWindow (segs : List LineSegment) (i : ℕ) : Prop :=
  i + 5 ≤ segs.length ∧
  3 ≤ ((segs.drop i).take 5).countP (fun s => s.is_extrusion) ∧
  ∀ s ∈ (segs.drop i).take 5, awayOK s

instance (segs : List LineSegment) (i : ℕ) : Decidable (goodWindow segs i) := by
  unfold goodWindow
  exact inferInstance

/-- Mirror of the `windows(5)` search of `filter_priming_lines`: index
of the first qualifying window, if any. -/
def findStart : List LineSegment → Option ℕ
  | [] => none
  | s :: rest =>
    if goodWindow (s :: rest) 0 then some 0
    else (findStart rest).map (fun k => k + 1)

/-- Mirror of `segments.iter().rposition(|s| s.is_extrusion)`: index of
the last extrusion segment, if any. -/
def rpositionDep : List LineSegment → Option ℕ
  | [] => none
  | s :: rest =>
    match rpositionDep rest with
    | some i => some (i + 1)
    | none => if s.is_extrusion then some 0 else none

/-- The `(start, end)` index pair computed by `filter_priming_lines`:
the end index is one past the last extrusion segment (`map(|i| i + 1)`),
with the `unwrap_or` defaults `0` and `segments.len()`. -/
def trimRange (segs : List LineSegment) : ℕ × ℕ :=
  ((findStart segs).getD 0,
   ((rpositionDep segs).map (fun i => i + 1)).getD segs.length)

/-- Mirror of `filter_priming_lines`: empty input short-circuits,
otherwise the slice `segments[start..end]` is returned. -/
def filter_priming_lines (segs : List LineSegment) : List LineSegment :=
  if segs = [] then []
  else (segs.drop (trimRange segs).1).take ((trimRange segs).2 - (trimRange segs).1)

/-- One fold step of `compute_bounds`: expand over both endpoints of an
extrusion segment, skip other segments. -/
def bstep (b : Bounds) (s : LineSegment) : Bounds :=
  if s.is_extrusion then (b.expand s.start).expand s.endPt else b

/-- Mirror of `compute_bounds`. -/
def compute_bounds (segs : List LineSegment) : Bounds :=
  segs.foldl bstep Bounds.new

theorem Vec3D.eq_iff (a b : Vec3D) :
    a = b ↔ a.x = b.x ∧ a.y = b.y ∧ a.z = b.z := by
  cases a
  cases b
  simp

theorem moveStep_fst (st : PState) (args : List Arg) :
    (moveStep st args).1 =
      ⟨(resolveMove st args).1, (resolveMove st args).2, st.absolute_mode⟩ := rfl

theorem moveStep_none_iff (st : PState) (args : List Arg) :
    (moveStep st args).2 = none ↔ (resolveMove st args).1 = st.current_pos := by
  simp only [moveStep]
  by_cases hd : (resolveMove st args).1.x ≠ st.current_pos.x ∨
      (resolveMove st args).1.y ≠ st.current_pos.y ∨
      (resolveMove st args).1.z ≠ st.current_pos.z
  · rw [if_pos hd]
    constructor
    · intro h
      exact absurd h (Option.some_ne_none _)
    · intro he
      rcases hd with h | h | h <;> exact absurd (by rw [he]) h
  · rw [if_neg hd]
    push_neg at hd
    exact ⟨fun _ => (Vec3D.eq_iff _ _).2 ⟨hd.1, hd.2.1, hd.2.2⟩, fun _ => rfl⟩

theorem moveStep_some (st : PState) (args : List Arg) (seg : LineSegment)
    (h : (moveStep st args).2 = some seg) :
    seg = ⟨st.current_pos, (resolveMove st args).1,
           decide (st.e_pos < (resolveMove st args).2),
           (resolveMove st args).1.z⟩ := by
  simp only [moveStep] at h
  split_ifs at h with hd
  injection h with h
  exact h.symm

theorem stepGCode_motion (st : PState) (g : GCode)
    (h1 : g.mnemonic = Mnemonic.General) (h2 : g.major = 0 ∨ g.major = 1) :
    stepGCode st g = moveStep st g.args := by
  obtain ⟨mn, maj, args⟩ := g
  dsimp only at h1 h2 ⊢
  subst h1
  simp only [stepGCode]
  rw [if_pos h2]

theorem step_spec (st : PState) (g : GCode) :
    ((stepGCode st g).2 = none ∧ (stepGCode st g).1.current_pos = st.current_pos) ∨
    (∃ seg, (stepGCode st g).2 = some seg ∧ seg.start = st.current_pos ∧
      (stepGCode st g).1.current_pos = seg.endPt ∧ seg.start ≠ seg.endPt) := by
  obtain ⟨mn, maj, args⟩ := g
  cases mn
  case General =>
    dsimp only [stepGCode]
    by_cases h01 : maj = 0 ∨ maj = 1
    · rw [if_pos h01]
      rcases h : (moveStep st args).2 with _ | seg
      · left
        refine ⟨rfl, ?_⟩
        rw [moveStep_fst]
        exact (moveStep_none_iff st args).1 h
      · right
        have hseg := moveStep_some st args seg h
        refine ⟨seg, rfl, by rw [hseg], by rw [moveStep_fst, hseg], ?_⟩
        rw [hseg]
        intro he
        dsimp only at he
        have hne : (moveStep st args).2 ≠ none := by
          rw [h]
          exact Option.some_ne_none _
        exact hne ((moveStep_none_iff st args).2 he.symm)
    · rw [if_neg h01]
      split_ifs <;> exact Or.inl ⟨rfl, rfl⟩
  all_goals exact Or.inl ⟨rfl, rfl⟩

/-- Chaining predicate: the segments follow one another starting at `p`
and the interpreter position ends at `q`. -/
def chainedTo : Vec3D → List LineSegment → Vec3D → Prop
  | p, [], q => q = p
  | p, s :: rest, q => s.start = p ∧ chainedTo s.endPt rest q

theorem runCmds_chainedTo (cmds : List GCode) :
    ∀ st : PState,
      chainedTo st.current_pos (runCmds st cmds).2
        (runCmds st cmds).1.current_pos := by
  induction cmds with
  | nil =>
    intro st
    exact rfl
  | cons g rest ih =>
    intro st
    simp only [runCmds]
    rcases step_spec st g with ⟨h2, hpos⟩ | ⟨seg, h2, hstart, hpos, _⟩
    · rw [h2]
      simp only [Option.toList, List.nil_append]
      have h := ih (stepGCode st g).1
      rwa [hpos] at h
    · rw [h2]
      simp only [Option.toList, List.cons_append, List.nil_append]
      refine ⟨hstart, ?_⟩
      have h := ih (stepGCode st g).1
      rwa [hpos] at h

theorem chainedTo_head (p q : Vec3D) (segs : List LineSegment) (s : LineSegment)
    (hc : chainedTo p segs q) (hs : segs[0]? = some s) : s.start = p := by
  cases segs with
  | nil => cases hs
  | cons a rest =>
    rw [List.getElem?_cons_zero] at hs
    injection hs with hs
    rw [← hs]
    exact hc.1

theorem chainedTo_succ (segs : List LineSegment) :
    ∀ p q, chainedTo p segs q →
      ∀ i s t, segs[i]? = some s → segs[i + 1]? = some t →
        s.endPt = t.start := by
  induction segs with
  | nil =>
    intro p q _ i s t hs _
    cases hs
  | cons a rest ih =>
    intro p q hc i s t hs ht
    cases i with
    | zero =>
      rw [List.getElem?_cons_zero] at hs
      injection hs with hs
      rw [List.getElem?_cons_succ] at ht
      have := chainedTo_head a.endPt q rest t hc.2 ht
      rw [← hs, this]
    | succ i =>
      rw [List.getElem?_cons_succ] at hs ht
      exact ih a.endPt q hc.2 i s t hs ht

theorem runCmds_mem_ne (cmds : List GCode) :
    ∀ (st : PState) (seg : LineSegment),
      seg ∈ (runCmds st cmds).2 → seg.start ≠ seg.endPt := by
  induction cmds with
  | nil =>
    intro st seg h
    simp [runCmds] at h
  | cons g rest ih =>
    intro st seg h
    simp only [runCmds, List.mem_append] at h
    rcases h with h | h
    · rcases step_spec st g with ⟨h2, _⟩ | ⟨seg2, h2, _, _, hne⟩
      · rw [h2] at h
        simp [Option.toList] at h
      · rw [h2] at h
        simp only [Option.toList, List.mem_singleton] at h
        rw [h]
        exact hne
    · exact ih _ _ h

theorem rpositionDep_lt (l : List LineSegment) :
    ∀ j, rpositionDep l = some j → j < l.length := by
  induction l with
  | nil =>
    intro j h
    cases h
  | cons s rest ih =>
    intro j h
    simp only [rpositionDep] at h
    rcases h2 : rpositionDep rest with _ | i
    · rw [h2] at h
      split_ifs at h with hs
      injection h with h
      rw [← h]
      simp
    · rw [h2] at h
      injection h with h
      have := ih i h2
      rw [← h]
      simp only [List.length_cons]
      omega

theorem rpositionDep_get (l : List LineSegment) :
    ∀ j, rpositionDep l = some j →
      ∃ s, l[j]? = some s ∧ s.is_extrusion = true := by
  induction l with
  | nil =>
    intro j h
    cases h
  | cons s rest ih =>
    intro j h
    simp only [rpositionDep] at h
    rcases h2 : rpositionDep rest with _ | i
    · rw [h2] at h
      split_ifs at h with hs
      injection h with h
      exact ⟨s, by rw [← h, List.getElem?_cons_zero], hs⟩
    · rw [h2] at h
      injection h with h
      obtain ⟨t, ht, hdep⟩ := ih i h2
      exact ⟨t, by rw [← h, List.getElem?_cons_succ]; exact ht, hdep⟩

theorem rpositionDep_none (l : List LineSegment) :
    rpositionDep l = none → ∀ s ∈ l, s.is_extrusion = false := by
  induction l with
  | nil =>
    intro _ s hs
    cases hs
  | cons a rest ih =>
    intro h s hs
    simp only [rpositionDep] at h
    rcases h2 : rpositionDep rest with _ | i
    · rw [h2] at h
      split_ifs at h with ha
      rcases List.mem_cons.1 hs with hs | hs
      · rw [hs]
        exact Bool.eq_false_iff.2 ha
      · exact ih h2 s hs
    · rw [h2] at h
      cases h

theorem rpositionDep_ge (l : List LineSegment) :
    ∀ m s, l[m]? = some s → s.is_extrusion = true →
      ∃ j, rpositionDep l = some j ∧ m ≤ j := by
  induction l with
  | nil =>
    intro m s hm _
    cases hm
  | cons a rest ih =>
    intro m s hm hdep
    cases m with
    | zero =>
      rw [List.getElem?_cons_zero] at hm
      injection hm with hm
      rcases h2 : rpositionDep rest with _ | i
      · refine ⟨0, ?_, le_refl 0⟩
        simp only [rpositionDep, h2]
        rw [hm, if_pos hdep]
      · exact ⟨i + 1, by simp only [rpositionDep, h2], Nat.zero_le _⟩
    | succ m =>
      rw [List.getElem?_cons_succ] at hm
      obtain ⟨j, hj, hle⟩ := ih m s hm hdep
      refine ⟨j + 1, ?_, Nat.succ_le_succ hle⟩
      simp only [rpositionDep, hj]

theorem rpositionDep_last (l : List LineSegment) :
    ∀ j s, l[j]? = some s → s.is_extrusion = true →
      (∀ k t, j < k → l[k]? = some t → t.is_extrusion = false) →
      rpositionDep l = some j := by
  induction l with
  | nil =>
    intro j s hj _ _
    cases hj
  | cons a rest ih =>
    intro j s hj hdep hlast
    cases j with
    | zero =>
      rw [List.getElem?_cons_zero] at hj
      injection hj with hj
      have hnone : rpositionDep rest = none := by
        rcases h2 : rpositionDep rest with _ | i
        · rfl
        · obtain ⟨t, ht, htdep⟩ := rpositionDep_get rest i h2
          have : t.is_extrusion = false := by
            refine hlast (i + 1) t (Nat.succ_pos i) ?_
            rw [List.getElem?_cons_succ]
            exact ht
          rw [htdep] at this
          cases this
      simp only [rpositionDep, hnone]
      rw [hj, if_pos hdep]
    | succ j =>
      rw [List.getElem?_cons_succ] at hj
      have h2 : rpositionDep rest = some j := by
        refine ih j s hj hdep ?_
        intro k t hk ht
        refine hlast (k + 1) t (Nat.succ_lt_succ hk) ?_
        rw [List.getElem?_cons_succ]
        exact ht
      simp only [rpositionDep, h2]

theorem goodWindow_cons_succ (a : LineSegment) (rest : List LineSegment) (k : ℕ) :
    goodWindow (a :: rest) (k + 1) ↔ goodWindow rest k := by
  unfold goodWindow
  rw [List.drop_succ_cons, List.length_cons]
  constructor
  · rintro ⟨h1, h2⟩
    exact ⟨by omega, h2⟩
  · rintro ⟨h1, h2⟩
    exact ⟨by omega, h2⟩

theorem findStart_some (l : List LineSegment) :
    ∀ i, findStart l = some i →
      goodWindow l i ∧ ∀ k, k < i → ¬ goodWindow l k := by
  induction l with
  | nil =>
    intro i h
    cases h
  | cons a rest ih =>
    intro i h
    simp only [findStart] at h
    split_ifs at h with h0
    · injection h with h
      rw [← h]
      exact ⟨h0, fun k hk => absurd hk (Nat.not_lt_zero k)⟩
    · rcases h2 : findStart rest with _ | i0
      · rw [h2] at h
        cases h
      · rw [h2] at h
        injection h with h
        obtain ⟨hg, hleast⟩ := ih i0 h2
        rw [← h]
        refine ⟨(goodWindow_cons_succ a rest i0).2 hg, ?_⟩
        intro k hk
        cases k with
        | zero => exact h0
        | succ k =>
          intro hgk
          exact hleast k (Nat.lt_of_succ_lt_succ hk)
            ((goodWindow_cons_succ a rest k).1 hgk)

theorem findStart_none (l : List LineSegment) :
    findStart l = none → ∀ k, ¬ goodWindow l k := by
  induction l with
  | nil =>
    intro _ k hg
    have h1 := hg.1
    simp only [List.length_nil] at h1
    omega
  | cons a rest ih =>
    intro h k
    simp only [findStart] at h
    split_ifs at h with h0
    cases k with
    | zero => exact h0
    | succ k =>
      intro hgk
      rcases h2 : findStart rest with _ | i0
      · exact ih h2 k ((goodWindow_cons_succ a rest k).1 hgk)
      · rw [h2] at h
        cases h

theorem findStart_of_least (l : List LineSegment) :
    ∀ i, goodWindow l i → (∀ k, k < i → ¬ goodWindow l k) →
      findStart l = some i := by
  induction l with
  | nil =>
    intro i hg _
    have h1 := hg.1
    simp only [List.length_nil] at h1
    omega
  | cons a rest ih =>
    intro i hg hleast
    cases i with
    | zero =>
      simp only [findStart]
      rw [if_pos hg]
    | succ i =>
      have h0 : ¬ goodWindow (a :: rest) 0 := hleast 0 (Nat.succ_pos i)
      have h2 : findStart rest = some i := by
        refine ih i ((goodWindow_cons_succ a rest i).1 hg) ?_
        intro k hk hgk
        exact hleast (k + 1) (Nat.succ_lt_succ hk)
          ((goodWindow_cons_succ a rest k).2 hgk)
      simp only [findStart]
      rw [if_neg h0, h2]
      rfl

theorem findStart_none_of (l : List LineSegment)
    (h : ∀ k, ¬ goodWindow l k) : findStart l = none := by
  rcases h2 : findStart l with _ | i
  · rfl
  · exact absurd (findStart_some l i h2).1 (h i)

theorem trim_stop_le_len (segs : List LineSegment) :
    (trimRange segs).2 ≤ segs.length := by
  unfold trimRange
  rcases h : rpositionDep segs with _ | j
  · simp
  · have := rpositionDep_lt segs j h
    simp only [Option.map_some', Option.getD_some]
    omega

theorem trim_start_lt_stop (segs : List LineSegment) :
    ∀ i, findStart segs = some i → i < (trimRange segs).2 := by
  intro i h
  obtain ⟨hg, _⟩ := findStart_some segs i h
  have hcount := hg.2.1
  have hpos : 0 < ((segs.drop i).take 5).countP (fun s => s.is_extrusion) := by
    omega
  obtain ⟨s, hs, hdep⟩ := List.countP_pos_iff.1 hpos
  have hs2 : s ∈ segs.drop i := List.mem_of_mem_take hs
  obtain ⟨m, hm⟩ := List.mem_iff_getElem?.1 hs2
  rw [List.getElem?_drop] at hm
  obtain ⟨j, hj, hle⟩ := rpositionDep_ge segs (i + m) s hm hdep
  unfold trimRange
  rw [hj]
  simp only [Option.map_some', Option.getD_some]
  omega

theorem trim_start_le_stop (segs : List LineSegment) :
    (trimRange segs).1 ≤ (trimRange segs).2 := by
  rcases h : findStart segs with _ | i
  · unfold trimRange
    rw [h]
    simp
  · have := trim_start_lt_stop segs i h
    have heq : (trimRange segs).1 = i := by
      unfold trimRange
      rw [h]
      rfl
    omega

/-- Window start condition at index `i` as worded in the spec: among
the 5 consecutive segments starting at `i`, at least 3 are depositing,
every segment has both endpoints with `x ≥ 10` and `y ≥ 20`, and its
absolute x- and y-extents are each at most 100. -/
def specWindowOK (segs : List LineSegment) (i : ℕ) : Prop :=
  i + 5 ≤ segs.length ∧
  3 ≤ ((segs.drop i).take 5).countP (fun s => s.is_extrusion) ∧
  ∀ s ∈ (segs.drop i).take 5,
    (10 ≤ s.start.x ∧ 10 ≤ s.endPt.x ∧ 20 ≤ s.start.y ∧ 20 ≤ s.endPt.y) ∧
    |s.endPt.x - s.start.x| ≤ 100 ∧ |s.endPt.y - s.start.y| ≤ 100

instance (segs : List LineSegment) (i : ℕ) : Decidable (specWindowOK segs i) := by
  unfold specWindowOK
  exact inferInstance

theorem awayOK_iff (s : LineSegment) :
    awayOK s ↔
      (10 ≤ s.start.x ∧ 10 ≤ s.endPt.x ∧ 20 ≤ s.start.y ∧ 20 ≤ s.endPt.y) ∧
      |s.endPt.x - s.start.x| ≤ 100 ∧ |s.endPt.y - s.start.y| ≤ 100 := by
  unfold awayOK
  push_neg
  tauto

theorem specWindowOK_iff_goodWindow (segs : List LineSegment) (i : ℕ) :
    specWindowOK segs i ↔ goodWindow segs i := by
  unfold specWindowOK goodWindow
  constructor
  · rintro ⟨h1, h2, h3⟩
    exact ⟨h1, h2, fun s hs => (awayOK_iff s).2 (h3 s hs)⟩
  · rintro ⟨h1, h2, h3⟩
    exact ⟨h1, h2, fun s hs => (awayOK_iff s).1 (h3 s hs)⟩

theorem foldl_bstep_filter (l : List LineSegment) :
    ∀ b : Bounds,
      l.foldl bstep b = (l.filter (fun s => s.is_extrusion)).foldl bstep b := by
  induction l with
  | nil =>
    intro b
    rfl
  | cons s rest ih =>
    intro b
    rcases h : s.is_extrusion with _ | _
    · rw [List.foldl_cons, List.filter_cons]
      rw [h]
      simp only [Bool.false_eq_true, if_false]
      rw [show bstep b s = b by unfold bstep; rw [h]; rfl]
      exact ih b
    · rw [List.foldl_cons, List.filter_cons]
      rw [h]
      simp only [if_true]
      rw [List.foldl_cons]
      exact ih (bstep b s)

theorem foldl_bstep_nodep (l : List LineSegment) :
    ∀ b : Bounds, (∀ s ∈ l, s.is_extrusion = false) → l.foldl bstep b = b := by
  induction l with
  | nil =>
    intro b _
    rfl
  | cons s rest ih =>
    intro b h
    rw [List.foldl_cons]
    rw [show bstep b s = b by
      unfold bstep
      rw [h s (List.mem_cons_self s rest)]
      rfl]
    exact ih b fun t ht => h t (List.mem_cons_of_mem s ht)

/-- Value of the last argument with the given letter, if any: the value
the argument loop of `parse_gcode` leaves in the corresponding
component. -/
def lastVal : List Arg → Char → Option ℚ
  | [], _ => none
  | a :: rest, c =>
    match lastVal rest c with
    | some v => some v
    | none => if a.letter = c then some a.value else none

theorem foldl_applyArg_x (args : List Arg) :
    ∀ (p : Vec3D) (e : ℚ),
      (args.foldl applyArg (p, e)).1.x = (lastVal args 'X').getD p.x := by
  induction args with
  | nil =>
    intro p e
    rfl
  | cons a rest ih =>
    intro p e
    rw [List.foldl_cons]
    have h := ih (applyArg (p, e) a).1 (applyArg (p, e) a).2
    rcases hl : lastVal rest 'X' with _ | v
    · rw [hl] at h
      simp only [lastVal, hl, Option.getD_none] at h ⊢
      rw [h]
      by_cases hx : a.letter = 'X'
      · rw [if_pos hx]
        unfold applyArg
        rw [if_pos hx]
        rfl
      · rw [if_neg hx]
        unfold applyArg
        rw [if_neg hx]
        split_ifs <;> rfl
    · rw [hl] at h
      simp only [lastVal, hl] at h ⊢
      exact h

theorem foldl_applyArg_y (args : List Arg) :
    ∀ (p : Vec3D) (e : ℚ),
      (args.foldl applyArg (p, e)).1.y = (lastVal args 'Y').getD p.y := by
  induction args with
  | nil =>
    intro p e
    rfl
  | cons a rest ih =>
    intro p e
    rw [List.foldl_cons]
    have h := ih (applyArg (p, e) a).1 (applyArg (p, e) a).2
    rcases hl : lastVal rest 'Y' with _ | v
    · rw [hl] at h
      simp only [lastVal, hl, Option.getD_none] at h ⊢
      rw [h]
      by_cases hy : a.letter = 'Y'
      · rw [if_pos hy]
        unfold applyArg
        rw [if_neg (show ¬ a.letter = 'X' by rw [hy]; decide), if_pos hy]
        rfl
      · rw [if_neg hy]
        unfold applyArg
        split_ifs <;> rfl
    · rw [hl] at h
      simp only [lastVal, hl] at h ⊢
      exact h

theorem foldl_applyArg_z (args : List Arg) :
    ∀ (p : Vec3D) (e : ℚ),
      (args.foldl applyArg (p, e)).1.z = (lastVal args 'Z').getD p.z := by
  induction args with
  | nil =>
    intro p e
    rfl
  | cons a rest ih =>
    intro p e
    rw [List.foldl_cons]
    have h := ih (applyArg (p, e) a).1 (applyArg (p, e) a).2
    rcases hl : lastVal rest 'Z' with _ | v
    · rw [hl] at h
      simp only [lastVal, hl, Option.getD_none] at h ⊢
      rw [h]
      by_cases hz : a.letter = 'Z'
      · rw [if_pos hz]
        unfold applyArg
        rw [if_neg (show ¬ a.letter = 'X' by rw [hz]; decide),
            if_neg (show ¬ a.letter = 'Y' by rw [hz]; decide), if_pos hz]
        rfl
      · rw [if_neg hz]
        unfold applyArg
        split_ifs <;> rfl
    · rw [hl] at h
      simp only [lastVal, hl] at h ⊢
      exact h

theorem foldl_applyArg_e (args : List Arg) :
    ∀ (p : Vec3D) (e : ℚ),
      (args.foldl applyArg (p, e)).2 = (lastVal args 'E').getD e := by
  induction args with
  | nil =>
    intro p e
    rfl
  | cons a rest ih =>
    intro p e
    rw [List.foldl_cons]
    have h := ih (applyArg (p, e) a).1 (applyArg (p, e) a).2
    rcases hl : lastVal rest 'E' with _ | v
    · rw [hl] at h
      simp only [lastVal, hl, Option.getD_none] at h ⊢
      rw [h]
      by_cases he : a.letter = 'E'
      · rw [if_pos he]
        unfold applyArg
        rw [if_neg (show ¬ a.letter = 'X' by rw [he]; decide),
            if_neg (show ¬ a.letter = 'Y' by rw [he]; decide),
            if_neg (show ¬ a.letter = 'Z' by rw [he]; decide), if_pos he]
        rfl
      · rw [if_neg he]
        unfold applyArg
        split_ifs <;> rfl
    · rw [hl] at h
      simp only [lastVal, hl] at h ⊢
      exact h

/-- Input text of end-to-end scenario 1. -/
def c1text : String := "G90\nG1 X0 Y0 Z0\nG1 X10 Y0 Z0 E1\n"

/-- Claim C1, counterexample: the scenario-1 input yields one segment,
not two — the first motion command resolves to the prior position (the
origin), so no segment is emitted for it. -/
theorem c1_two_segments_refuted : (parse_gcode c1text).length ≠ 2 := by
  decide

/-- Claim C1, amended: the scenario-1 input produces exactly one
segment, from the origin to (10,0,0), with `is_depositing = true`. -/
theorem c1_single_depositing_segment :
    parse_gcode c1text = [⟨⟨0, 0, 0⟩, ⟨10, 0, 0⟩, true, 0⟩] := by
  decide

/-- Interpreter state of the C2 failing input: relative mode, prior
position (0,5,0), prior deposited quantity 0. -/
def c2state : PState := ⟨⟨0, 5, 0⟩, 0, false⟩

/-- Motion command of the C2 failing input: `G1 X1`, specifying only X. -/
def c2cmd : GCode := ⟨Mnemonic.General, 1, [⟨'X', 1⟩]⟩

/-- Claim C2, code evaluated at the failing input: in relative mode a
command specifying only X resolves the unspecified Y to 10 — the
carried-forward prior value 5 has the prior value added to it again —
instead of leaving it at the prior 5. -/
theorem c2_relative_doubling_eval :
    (stepGCode c2state c2cmd).1.current_pos = ⟨1, 10, 0⟩ ∧
    c2state.current_pos.y = 5 := by
  with_unfolding_all decide

/-- Two-segment input, depositing then non-depositing, refuting the
small-input clause of claim C3. -/
def c3segs : List LineSegment :=
  [⟨⟨0, 0, 0⟩, ⟨1, 0, 0⟩, true, 0⟩, ⟨⟨1, 0, 0⟩, ⟨2, 0, 0⟩, false, 0⟩]

/-- Claim C3, counterexample: an input of fewer than 5 segments with a
depositing segment is not returned unmodified — the trailing
non-depositing segment is trimmed by the end-boundary heuristic. -/
theorem c3_small_input_refuted :
    c3segs.length < 5 ∧ (∃ s ∈ c3segs, s.is_extrusion = true) ∧
    filter_priming_lines c3segs ≠ c3segs := by
  decide

/-- Claim C3, amended: the trimmer's range always satisfies
`0 ≤ start ≤ end ≤ len`; for fewer than 5 segments containing at least
one depositing segment the start boundary is 0 and the result is the
prefix up to the end boundary (one past the last depositing segment),
which is the full sequence only when the final segment is depositing. -/
theorem c3_trim_range_and_small_input (segs : List LineSegment) :
    ((trimRange segs).1 ≤ (trimRange segs).2 ∧
     (trimRange segs).2 ≤ segs.length) ∧
    (segs.length < 5 → (∃ s ∈ segs, s.is_extrusion = true) →
      (trimRange segs).1 = 0 ∧
      filter_priming_lines segs = segs.take (trimRange segs).2) := by
  refine ⟨⟨trim_start_le_stop segs, trim_stop_le_len segs⟩, ?_⟩
  intro hlen hex
  have hstart : findStart segs = none := by
    apply findStart_none_of
    intro k hg
    have h1 := hg.1
    omega
  have h1 : (trimRange segs).1 = 0 := by
    unfold trimRange
    rw [hstart]
    rfl
  refine ⟨h1, ?_⟩
  have hne : segs ≠ [] := by
    obtain ⟨s, hs, _⟩ := hex
    exact List.ne_nil_of_mem hs
  unfold filter_priming_lines
  rw [if_neg hne, h1, List.drop_zero, Nat.sub_zero]

/-- Witness for C3's amended theorem at the concrete two-segment input. -/
theorem c3_witness :
    (trimRange c3segs).1 = 0 ∧
    filter_priming_lines c3segs = c3segs.take (trimRange c3segs).2 :=
  (c3_trim_range_and_small_input c3segs).2 (by decide) (by decide)

/-- Claim C4: in relative positioning mode each specified argument value
is added to the prior state's corresponding component (position axes and
deposited quantity alike); in particular `X5` with prior x = 10 resolves
to x = 15. -/
theorem c4_relative_args_add_to_prior :
    (∀ (st : PState) (args : List Arg) (v : ℚ), st.absolute_mode = false →
      ((lastVal args 'X' = some v →
          (resolveMove st args).1.x = st.current_pos.x + v) ∧
       (lastVal args 'Y' = some v →
          (resolveMove st args).1.y = st.current_pos.y + v) ∧
       (lastVal args 'Z' = some v →
          (resolveMove st args).1.z = st.current_pos.z + v) ∧
       (lastVal args 'E' = some v →
          (resolveMove st args).2 = st.e_pos + v))) ∧
    (resolveMove ⟨⟨10, 0, 0⟩, 0, false⟩ [⟨'X', 5⟩]).1.x = 15 := by
  constructor
  · intro st args v habs
    refine ⟨fun hv => ?_, fun hv => ?_, fun hv => ?_, fun hv => ?_⟩
    · have hx := foldl_applyArg_x args st.current_pos st.e_pos
      rw [hv, Option.getD_some] at hx
      simp only [resolveMove, habs, Bool.false_eq_true, if_false]
      rw [hx]
      ring
    · have hy := foldl_applyArg_y args st.current_pos st.e_pos
      rw [hv, Option.getD_some] at hy
      simp only [resolveMove, habs, Bool.false_eq_true, if_false]
      rw [hy]
      ring
    · have hz := foldl_applyArg_z args st.current_pos st.e_pos
      rw [hv, Option.getD_some] at hz
      simp only [resolveMove, habs, Bool.false_eq_true, if_false]
      rw [hz]
      ring
    · have he := foldl_applyArg_e args st.current_pos st.e_pos
      rw [hv, Option.getD_some] at he
      simp only [resolveMove, habs, Bool.false_eq_true, if_false]
      rw [he]
      ring
  · with_unfolding_all decide

/-- Witness for C4 at a concrete relative-mode state and argument list. -/
theorem c4_witness :
    (resolveMove ⟨⟨10, 20, 30⟩, 1, false⟩ [⟨'X', 5⟩, ⟨'E', 2⟩]).1.x = 10 + 5 :=
  (c4_relative_args_add_to_prior.1 ⟨⟨10, 20, 30⟩, 1, false⟩
    [⟨'X', 5⟩, ⟨'E', 2⟩] 5 rfl).1 (by decide)
/-- Claim C5: the trimmer's start boundary is the first index whose
5-segment window has at least 3 depositing segments, all endpoints with
x ≥ 10 and y ≥ 20, and x- and y-extents at most 100 (0 if no window
qualifies); the end boundary is one past the last depositing segment
(the full length if none exists). -/
theorem c5_trim_boundaries_characterized (segs : List LineSegment) :
    (∀ i, specWindowOK segs i → (∀ k, k < i → ¬ specWindowOK segs k) →
      (trimRange segs).1 = i) ∧
    ((∀ i, ¬ specWindowOK segs i) → (trimRange segs).1 = 0) ∧
    (∀ j s, segs[j]? = some s → s.is_extrusion = true →
      (∀ k t, j < k → segs[k]? = some t → t.is_extrusion = false) →
      (trimRange segs).2 = j + 1) ∧
    ((∀ s ∈ segs, s.is_extrusion = false) →
      (trimRange segs).2 = segs.length) := by
  refine ⟨?_, ?_, ?_, ?_⟩
  · intro i hi hleast
    have h : findStart segs = some i :=
      findStart_of_least segs i ((specWindowOK_iff_goodWindow segs i).1 hi)
        (fun k hk hgk =>
          hleast k hk ((specWindowOK_iff_goodWindow segs k).2 hgk))
    unfold trimRange
    rw [h]
    rfl
  · intro hno
    have h : findStart segs = none :=
      findStart_none_of segs
        (fun k hgk => hno k ((specWindowOK_iff_goodWindow segs k).2 hgk))
    unfold trimRange
    rw [h]
    rfl
  · intro j s hj hdep hlast
    have h : rpositionDep segs = some j :=
      rpositionDep_last segs j s hj hdep hlast
    unfold trimRange
    rw [h]
    rfl
  · intro hall
    have h : rpositionDep segs = none := by
      rcases h2 : rpositionDep segs with _ | j
      · rfl
      · obtain ⟨s, hs, hdep⟩ := rpositionDep_get segs j h2
        obtain ⟨hlt, he⟩ := List.getElem?_eq_some.1 hs
        have hmem : s ∈ segs := he ▸ List.getElem_mem hlt
        have hfalse := hall s hmem
        rw [hdep] at hfalse
        cases hfalse
    unfold trimRange
    rw [h]
    rfl

/-- Qualifying 5-segment window used as the C5 witness input: four of
five depositing, all endpoints away from the edges, short extents. -/
def c5segs : List LineSegment :=
  [⟨⟨20, 30, 0⟩, ⟨21, 30, 0⟩, true, 0⟩,
   ⟨⟨21, 30, 0⟩, ⟨22, 30, 0⟩, true, 0⟩,
   ⟨⟨22, 30, 0⟩, ⟨23, 30, 0⟩, false, 0⟩,
   ⟨⟨23, 30, 0⟩, ⟨24, 30, 0⟩, true, 0⟩,
   ⟨⟨24, 30, 0⟩, ⟨25, 30, 0⟩, true, 0⟩]

/-- Witness for C5 at the concrete qualifying window. -/
theorem c5_witness :
    (trimRange c5segs).1 = 0 ∧ (trimRange c5segs).2 = 5 := by
  constructor
  · exact (c5_trim_boundaries_characterized c5segs).1 0
      (by with_unfolding_all decide)
      (fun k hk => absurd hk (Nat.not_lt_zero k))
  · refine (c5_trim_boundaries_characterized c5segs).2.2.1 4
      ⟨⟨24, 30, 0⟩, ⟨25, 30, 0⟩, true, 0⟩ (by decide) (by decide) ?_
    intro k t hk ht
    have hlt := (List.getElem?_eq_some.1 ht).1
    rw [show c5segs.length = 5 from rfl] at hlt
    omega

/-- Claim C6: the bounds calculator expands over exactly the depositing
segments (filtering out non-depositing segments changes nothing), and
with no depositing segment the result is the initialized extrema. -/
theorem c6_bounds_depositing_only (segs : List LineSegment) :
    compute_bounds segs =
      compute_bounds (segs.filter (fun s => s.is_extrusion)) ∧
    ((∀ s ∈ segs, s.is_extrusion = false) →
      compute_bounds segs = Bounds.new) := by
  constructor
  · unfold compute_bounds
    exact foldl_bstep_filter segs Bounds.new
  · intro h
    unfold compute_bounds
    exact foldl_bstep_nodep segs Bounds.new h

/-- Witness for C6 at a concrete non-depositing input. -/
theorem c6_witness :
    compute_bounds [⟨⟨1, 2, 3⟩, ⟨4, 5, 6⟩, false, 6⟩] = Bounds.new :=
  (c6_bounds_depositing_only [⟨⟨1, 2, 3⟩, ⟨4, 5, 6⟩, false, 6⟩]).2
    (by decide)

/-- Claim C7: a motion command emits a segment iff the resolved position
differs from the prior position, and consequently every segment produced
from any input text has distinct start and end points (zero-length moves
never become segments). -/
theorem c7_segment_emitted_iff_moved :
    (∀ (st : PState) (g : GCode), g.mnemonic = Mnemonic.General →
      (g.major = 0 ∨ g.major = 1) →
      ((stepGCode st g).2 ≠ none ↔
        (resolveMove st g.args).1 ≠ st.current_pos)) ∧
    (∀ content : String, ∀ seg ∈ parse_gcode content,
      seg.start ≠ seg.endPt) := by
  constructor
  · intro st g h1 h2
    rw [stepGCode_motion st g h1 h2]
    constructor
    · intro hne heq
      exact hne ((moveStep_none_iff st g.args).2 heq)
    · intro hne hnone
      exact hne ((moveStep_none_iff st g.args).1 hnone)
  · intro content seg hmem
    exact runCmds_mem_ne _ initState seg hmem

/-- Witness for C7 at a concrete moving command. -/
theorem c7_witness :
    (stepGCode initState ⟨Mnemonic.General, 1, [⟨'X', 10⟩]⟩).2 ≠ none :=
  (c7_segment_emitted_iff_moved.1 initState
    ⟨Mnemonic.General, 1, [⟨'X', 10⟩]⟩ rfl (Or.inr rfl)).2
    (by with_unfolding_all decide)

/-- Claim C8: an emitted segment's depositing flag is true iff the
resolved deposited quantity strictly exceeds the prior quantity, and
the interpreter state (position and deposited quantity) is updated to
the resolved values by every motion command, emitted segment or not. -/
theorem c8_depositing_flag_and_state_update :
    ∀ (st : PState) (g : GCode), g.mnemonic = Mnemonic.General →
      (g.major = 0 ∨ g.major = 1) →
      ((∀ seg, (stepGCode st g).2 = some seg →
         (seg.is_extrusion = true ↔ st.e_pos < (resolveMove st g.args).2)) ∧
       (stepGCode st g).1.current_pos = (resolveMove st g.args).1 ∧
       (stepGCode st g).1.e_pos = (resolveMove st g.args).2) := by
  intro st g h1 h2
  rw [stepGCode_motion st g h1 h2]
  refine ⟨?_, rfl, rfl⟩
  intro seg hseg
  have h := moveStep_some st g.args seg hseg
  rw [h]
  exact decide_eq_true_iff

/-- Witness for C8 at a concrete extruding command. -/
theorem c8_witness :
    (stepGCode initState ⟨Mnemonic.General, 1, [⟨'X', 10⟩, ⟨'E', 1⟩]⟩).1.e_pos =
      (resolveMove initState [⟨'X', 10⟩, ⟨'E', 1⟩]).2 :=
  (c8_depositing_flag_and_state_update initState
    ⟨Mnemonic.General, 1, [⟨'X', 10⟩, ⟨'E', 1⟩]⟩ rfl (Or.inr rfl)).2.2

/-- Claim C9: for a non-empty input the trimmer's indices satisfy
`start ≤ end ≤ len` (so the slice is in bounds), and any qualifying
start window index is strictly below the end boundary, its window
containing a depositing segment. -/
theorem c9_trim_slice_safe (segs : List LineSegment) (_h : segs ≠ []) :
    (trimRange segs).1 ≤ (trimRange segs).2 ∧
    (trimRange segs).2 ≤ segs.length ∧
    ∀ i, findStart segs = some i → i < (trimRange segs).2 :=
  ⟨trim_start_le_stop segs, trim_stop_le_len segs, trim_start_lt_stop segs⟩

/-- Witness for C9 at a concrete non-empty input. -/
theorem c9_witness :
    (trimRange [(⟨⟨0, 0, 0⟩, ⟨1, 1, 1⟩, true, 1⟩ : LineSegment)]).1 ≤
      (trimRange [(⟨⟨0, 0, 0⟩, ⟨1, 1, 1⟩, true, 1⟩ : LineSegment)]).2 ∧
    (trimRange [(⟨⟨0, 0, 0⟩, ⟨1, 1, 1⟩, true, 1⟩ : LineSegment)]).2 ≤
      [(⟨⟨0, 0, 0⟩, ⟨1, 1, 1⟩, true, 1⟩ : LineSegment)].length ∧
    ∀ i, findStart [(⟨⟨0, 0, 0⟩, ⟨1, 1, 1⟩, true, 1⟩ : LineSegment)] = some i →
      i < (trimRange [(⟨⟨0, 0, 0⟩, ⟨1, 1, 1⟩, true, 1⟩ : LineSegment)]).2 :=
  c9_trim_slice_safe [⟨⟨0, 0, 0⟩, ⟨1, 1, 1⟩, true, 1⟩] (by decide)

/-- Claim C10: the segment sequence of any input text is chained — each
segment starts where the previous one ended, the first segment starts at
the origin (the position reached by non-emitting commands, which leave
the position unchanged). -/
theorem c10_segments_chained (content : String) :
    (∀ i s t, (parse_gcode content)[i]? = some s →
       (parse_gcode content)[i + 1]? = some t → s.endPt = t.start) ∧
    (∀ s, (parse_gcode content)[0]? = some s → s.start = Vec3D.zero) ∧
    (∀ (st : PState) (g : GCode), (stepGCode st g).2 = none →
       (stepGCode st g).1.current_pos = st.current_pos) := by
  have hchain :=
    runCmds_chainedTo (((splitLines content.toList).map lineCmds).flatten)
      initState
  refine ⟨?_, ?_, ?_⟩
  · intro i s t hs ht
    exact chainedTo_succ _ _ _ hchain i s t hs ht
  · intro s hs
    exact chainedTo_head _ _ _ s hchain hs
  · intro st g h
    rcases step_spec st g with ⟨_, hpos⟩ | ⟨seg, h2, _, _, _⟩
    · exact hpos
    · rw [h] at h2
      cases h2

/-- Witness for C10 at a concrete two-move input. -/
theorem c10_witness :
    (⟨⟨0, 0, 0⟩, ⟨10, 0, 0⟩, false, 0⟩ : LineSegment).endPt =
      (⟨⟨10, 0, 0⟩, ⟨20, 5, 0⟩, false, 0⟩ : LineSegment).start :=
  (c10_segments_chained "G1 X10 Y0 Z0\nG1 X20 Y5 Z0").1 0
    ⟨⟨0, 0, 0⟩, ⟨10, 0, 0⟩, false, 0⟩ ⟨⟨10, 0, 0⟩, ⟨20, 5, 0⟩, false, 0⟩
    (by decide) (by decide)
